import Mathlib

/-!
Verification of the tool-call bridge and request-correlation protocol of the
property_bot backends (`src/backend/server-openai.js`, `src/backend/server-enhanced.js`).

The bridge (`MCPServerManager`) is embedded as a pure state machine:
* `Json` models the JavaScript values produced by `JSON.parse`, with numbers
  kept exact as `mantissa * 10 ^ (-scale)` (ids and the payloads used by the
  claims are exactly representable in a float64, so exact arithmetic agrees
  with the JavaScript semantics on everything the theorems touch);
* `parseJson` is an executable JSON parser following the `JSON.parse` grammar
  (strict numbers, string escapes, no trailing garbage, whitespace allowed);
* `ManagerState` carries `requestId` and the keys of the `pendingRequests` map
  (insertion-ordered, as a JavaScript `Map` is); resolving or rejecting a
  pending promise is recorded as an explicit `Effect`;
* `handleLine` embeds the `rl.on('line', ...)` handler, `callTool` the
  registration/send/schedule part of `MCPServerManager.callTool`, and
  `handleTimeout` the body of its `setTimeout` callback;
* `normalizeResult` embeds the result normalization in `app.post('/api/chat')`
  of server-openai.js, and `selectStructuredData` its structured-data
  selection loop; `enhancedCalcReply` embeds the `result.result` /
  `result.error` branches of server-enhanced.js.
-/

/-- JavaScript values as produced by `JSON.parse`.  A number is the exact
rational `m / 10 ^ scale`; the parser normalizes so that `scale` is minimal
(no trailing zero factor), hence two parsed numbers are numerically equal iff
they are syntactically equal. -/
inductive Json where
  | null : Json
  | bool (b : Bool) : Json
  | num (m : Int) (scale : Nat) : Json
  | str (s : String) : Json
  | arr (elems : List Json) : Json
  | obj (members : List (String × Json)) : Json

/-- The JSON whitespace characters (space, tab, line feed, carriage return). -/
def isWsChar (c : Char) : Bool :=
  c == ' ' || c == '\t' || c == '\n' || c == '\r'

/-- Drop leading JSON whitespace. -/
def skipWs : List Char → List Char
  | [] => []
  | c :: cs => if isWsChar c then skipWs cs else c :: cs

def isDigitChar (c : Char) : Bool :=
  '0' ≤ c && c ≤ '9'

/-- Split a longest digit run off the front. -/
def takeDigits : List Char → List Char × List Char
  | [] => ([], [])
  | c :: cs =>
    if isDigitChar c then
      let p := takeDigits cs
      (c :: p.1, p.2)
    else ([], c :: cs)

def digitsToNat (l : List Char) : Nat :=
  l.foldl (fun a c => a * 10 + (c.toNat - 48)) 0

/-- Strip factors of ten out of the mantissa while the scale is positive. -/
def reduceNum : Int → Nat → Int × Nat
  | m, 0 => (m, 0)
  | m, k + 1 => if m % 10 == 0 then reduceNum (m / 10) k else (m, k + 1)

/-- Assemble a parsed JSON number from its sign, integer digits, fraction
digits and exponent into the normalized exact representation. -/
def mkNum (neg : Bool) (intD fracD : List Char) (expNeg : Bool) (expD : List Char) : Json :=
  let mant : Nat := digitsToNat (intD ++ fracD)
  let e : Nat := digitsToNat expD
  let signed : Int := if neg then -(mant : Int) else (mant : Int)
  let effScale : Int := (fracD.length : Int) - (if expNeg then -(e : Int) else (e : Int))
  if effScale ≤ 0 then
    Json.num (signed * (10 : Int) ^ (-effScale).toNat) 0
  else
    let p := reduceNum signed effScale.toNat
    Json.num p.1 p.2

/-- Leading `-` sign of a JSON number. -/
def parseSign : List Char → Bool × List Char
  | [] => (false, [])
  | c :: t => if c == '-' then (true, t) else (false, c :: t)

/-- Integer part of a JSON number: `0`, or a nonzero digit followed by digits
(a leading zero may not be followed by further digits). -/
def parseIntPart : List Char → Option (List Char × List Char)
  | [] => none
  | c :: t =>
    if c == '0' then some (['0'], t)
    else if isDigitChar c then
      let p := takeDigits t
      some (c :: p.1, p.2)
    else none

/-- Optional fraction part `.digits` of a JSON number; a bare dot is an error. -/
def parseFrac : List Char → Option (List Char × List Char)
  | [] => some ([], [])
  | c :: t =>
    if c == '.' then
      let p := takeDigits t
      if p.1.isEmpty then none else some p
    else some ([], c :: t)

/-- A signless exponent tail: one or more digits. -/
def parseExpTail (neg : Bool) (u : List Char) : Option (Bool × List Char × List Char) :=
  let p := takeDigits u
  if p.1.isEmpty then none else some (neg, p.1, p.2)

/-- The sign and digits of an exponent, after the `e` marker. -/
def parseExpAfterE : List Char → Option (Bool × List Char × List Char)
  | [] => none
  | d :: u =>
    if d == '+' then parseExpTail false u
    else if d == '-' then parseExpTail true u
    else parseExpTail false (d :: u)

/-- Optional exponent part `e[+-]digits` of a JSON number. -/
def parseExp : List Char → Option (Bool × List Char × List Char)
  | [] => some (false, [], [])
  | c :: t =>
    if c == 'e' || c == 'E' then parseExpAfterE t
    else some (false, [], c :: t)

/-- Parse a JSON number literal off the front of the input. -/
def parseNumber (cs : List Char) : Option (Json × List Char) :=
  let s := parseSign cs
  match parseIntPart s.2 with
  | none => none
  | some (intD, cs2) =>
    match parseFrac cs2 with
    | none => none
    | some (fracD, cs3) =>
      match parseExp cs3 with
      | none => none
      | some (expNeg, expD, cs4) => some (mkNum s.1 intD fracD expNeg expD, cs4)

def hexVal (c : Char) : Option Nat :=
  if '0' ≤ c && c ≤ '9' then some (c.toNat - 48)
  else if 'a' ≤ c && c ≤ 'f' then some (c.toNat - 87)
  else if 'A' ≤ c && c ≤ 'F' then some (c.toNat - 55)
  else none

/-- One escape sequence inside a JSON string (after the backslash). -/
def parseEscape : List Char → Option (Char × List Char)
  | [] => none
  | e :: cs =>
    if e == '"' then some ('"', cs)
    else if e == '\\' then some ('\\', cs)
    else if e == '/' then some ('/', cs)
    else if e == 'b' then some (Char.ofNat 8, cs)
    else if e == 'f' then some (Char.ofNat 12, cs)
    else if e == 'n' then some ('\n', cs)
    else if e == 'r' then some ('\r', cs)
    else if e == 't' then some ('\t', cs)
    else if e == 'u' then
      match cs with
      | h1 :: h2 :: h3 :: h4 :: cs2 =>
        match hexVal h1, hexVal h2, hexVal h3, hexVal h4 with
        | some a, some b, some c, some d =>
          some (Char.ofNat (((a * 16 + b) * 16 + c) * 16 + d), cs2)
        | _, _, _, _ => none
      | _ => none
    else none

/-- Body of a JSON string after the opening quote: the decoded characters and
the input after the closing quote.  Raw control characters are rejected, as
`JSON.parse` rejects them. -/
def parseStringBody : Nat → List Char → Option (List Char × List Char)
  | 0, _ => none
  | _, [] => none
  | fuel + 1, c :: cs =>
    if c == '"' then some ([], cs)
    else if c == '\\' then
      match parseEscape cs with
      | none => none
      | some (ch, cs2) =>
        match parseStringBody fuel cs2 with
        | none => none
        | some (body, r) => some (ch :: body, r)
    else if c.toNat < 32 then none
    else
      match parseStringBody fuel cs with
      | none => none
      | some (body, r) => some (c :: body, r)

mutual

/-- Parse one JSON value off the front of the input (leading whitespace
allowed), following the `JSON.parse` grammar.  The fuel argument only serves
termination; `parseJson` supplies enough for any input. -/
def parseVal : Nat → List Char → Option (Json × List Char)
  | 0, _ => none
  | fuel + 1, cs =>
    match skipWs cs with
    | '{' :: t =>
      (match skipWs t with
       | '}' :: r => some (Json.obj [], r)
       | t2 =>
         match parseMembers fuel t2 with
         | some (kvs, r) => some (Json.obj kvs, r)
         | none => none)
    | '[' :: t =>
      (match skipWs t with
       | ']' :: r => some (Json.arr [], r)
       | t2 =>
         match parseElems fuel t2 with
         | some (xs, r) => some (Json.arr xs, r)
         | none => none)
    | '"' :: t =>
      (match parseStringBody (t.length + 1) t with
       | some (body, r) => some (Json.str (String.mk body), r)
       | none => none)
    | 'n' :: 'u' :: 'l' :: 'l' :: r => some (Json.null, r)
    | 't' :: 'r' :: 'u' :: 'e' :: r => some (Json.bool true, r)
    | 'f' :: 'a' :: 'l' :: 's' :: 'e' :: r => some (Json.bool false, r)
    | cs2 => parseNumber cs2

/-- Parse the members of a JSON object after the opening brace (the empty
object is handled by `parseVal`). -/
def parseMembers : Nat → List Char → Option (List (String × Json) × List Char)
  | 0, _ => none
  | fuel + 1, cs =>
    match skipWs cs with
    | '"' :: t =>
      (match parseStringBody (t.length + 1) t with
       | none => none
       | some (key, r1) =>
         match skipWs r1 with
         | ':' :: r2 =>
           (match parseVal fuel r2 with
            | none => none
            | some (v, r3) =>
              match skipWs r3 with
              | ',' :: r4 =>
                (match parseMembers fuel r4 with
                 | none => none
                 | some (rest, r5) => some ((String.mk key, v) :: rest, r5))
              | '}' :: r4 => some ([(String.mk key, v)], r4)
              | _ => none)
         | _ => none)
    | _ => none

/-- Parse the elements of a JSON array after the opening bracket (the empty
array is handled by `parseVal`). -/
def parseElems : Nat → List Char → Option (List Json × List Char)
  | 0, _ => none
  | fuel + 1, cs =>
    match parseVal fuel cs with
    | none => none
    | some (v, r1) =>
      match skipWs r1 with
      | ',' :: r2 =>
        (match parseElems fuel r2 with
         | none => none
         | some (rest, r3) => some (v :: rest, r3))
      | ']' :: r2 => some ([v], r2)
      | _ => none

end

/-- `JSON.parse`: one JSON value, with only whitespace allowed after it; on
any parse error the result is `none` (the JavaScript exception). -/
def parseJson (s : String) : Option Json :=
  match parseVal (s.length + 1) s.data with
  | some (j, rest) => if skipWs rest = [] then some j else none
  | none => none

/-- JavaScript truthiness of a parsed JSON value (`NaN` cannot occur). -/
def jsTruthy : Json → Bool
  | Json.null => false
  | Json.bool b => b
  | Json.num m _ => m != 0
  | Json.str s => s != ""
  | Json.arr _ => true
  | Json.obj _ => true

/-- Truthiness of a possibly-`undefined` value (`none` is `undefined`). -/
def jsTruthyOpt : Option Json → Bool
  | none => false
  | some j => jsTruthy j

/-- JavaScript property access `j[k]` on a parsed JSON value: `undefined`
(`none`) unless `j` is an object with member `k`; with duplicate keys the
last occurrence wins, as in `JSON.parse`. -/
def jsGet : Json → String → Option Json
  | Json.obj kvs, k => (kvs.reverse.find? (fun p => p.1 == k)).map (fun p => p.2)
  | _, _ => none

/-- Optional-chaining access `v?.[k]`: `undefined` stays `undefined`. -/
def jsGetOpt (v : Option Json) (k : String) : Option Json :=
  match v with
  | some j => jsGet j k
  | none => none

/-- JavaScript `a || b` where `a` may be `undefined`: `b` unless `a` is truthy. -/
def jsOr (a : Option Json) (b : Json) : Json :=
  match a with
  | some v => if jsTruthy v then v else b
  | none => b

/-- `needle.isPrefixOf hay` on character lists. -/
def isPrefixList : List Char → List Char → Bool
  | [], _ => true
  | _ :: _, [] => false
  | a :: as, b :: bs => a == b && isPrefixList as bs

/-- Substring search used by `String.prototype.includes`. -/
def hasSubstr (needle : List Char) : List Char → Bool
  | [] => needle.isEmpty
  | c :: t => isPrefixList needle (c :: t) || hasSubstr needle t

/-- JavaScript `s.includes(sub)`. -/
def includesStr (s sub : String) : Bool :=
  hasSubstr sub.data s.data

/-- Decimal rendering of the exact number `m / 10 ^ scale` (the claims never
hit JavaScript's exponential-notation thresholds). -/
def numLitString (m : Int) (scale : Nat) : String :=
  if scale = 0 then toString m
  else
    let digits := toString m.natAbs
    let sign := if m < 0 then "-" else ""
    if digits.length ≤ scale then
      sign ++ "0." ++ String.mk (List.replicate (scale - digits.length) '0') ++ digits
    else
      sign ++ (digits.take (digits.length - scale)) ++ "." ++ (digits.drop (digits.length - scale))

mutual

/-- JavaScript template-literal stringification `${j}` of a parsed JSON value. -/
def jsTemplate : Json → String
  | Json.null => "null"
  | Json.bool b => if b then "true" else "false"
  | Json.num m sc => numLitString m sc
  | Json.str s => s
  | Json.arr xs => jsTemplateArr xs
  | Json.obj _ => "[object Object]"

/-- `Array.prototype.toString`: elements joined by commas, `null` rendered empty. -/
def jsTemplateArr : List Json → String
  | [] => ""
  | x :: xs =>
    (match x with
     | Json.null => ""
     | j => jsTemplate j)
    ++ (match xs with | [] => "" | _ :: _ => ",")
    ++ jsTemplateArr xs

end

/-- `${v}` where `v` may be `undefined`. -/
def jsTemplateOpt : Option Json → String
  | none => "undefined"
  | some j => jsTemplate j

/-- State of `MCPServerManager`: the `requestId` counter and the keys of the
`pendingRequests` map in insertion order (a JavaScript `Map` preserves it).
The stored `{resolve, reject}` handles are represented implicitly: settling
the promise registered under key `n` is recorded as an `Effect` on `n`
(ids are never reused, so the key identifies the call). -/
structure ManagerState where
  requestId : Nat
  pending : List Nat
deriving DecidableEq, Repr

/-- `MCPServerManager` as constructed: `requestId = 0`, no pending requests. -/
def initState : ManagerState := ⟨0, []⟩

/-- An observable settlement of a pending call's promise. -/
inductive Effect where
  | resolved (id : Nat) (resp : Json) : Effect
  | rejected (id : Nat) (msg : String) : Effect

/-- The id a settlement acts on. -/
def effectId : Effect → Nat
  | Effect.resolved n _ => n
  | Effect.rejected n _ => n

/-- `this.pendingRequests.has(response.id)` for the pending key `n`:
the map keys are the integers allocated by `callTool`, and `Map` lookup uses
exact (SameValueZero) equality, so a response id matches `n` only when it is
the JSON number with value `n`. -/
def idMatches (v : Option Json) (n : Nat) : Bool :=
  match v with
  | some (Json.num m scale) => scale == 0 && m == (n : Int)
  | _ => false

/-- The `rl.on('line', ...)` handler of `MCPServerManager.start`
(server-openai.js lines 56-70, identical in server-enhanced.js lines 35-48):
parse the line as JSON (a parse error is caught and logged, affecting
nothing); if `pendingRequests` has the response's id, delete the entry and
resolve its promise with the entire parsed response; otherwise do nothing. -/
def handleLine (st : ManagerState) (line : String) : ManagerState × List Effect :=
  match parseJson line with
  | none => (st, [])
  | some resp =>
    match st.pending.find? (fun n => idMatches (jsGet resp "id") n) with
    | some n => ({ st with pending := st.pending.erase n }, [Effect.resolved n resp])
    | none => (st, [])

/-- Result of `MCPServerManager.callTool`'s synchronous part: the successor
state, the allocated id, the serialized request object, and the single
timer the call schedules (`setTimeout(..., 10000)`). -/
structure CallResult where
  newState : ManagerState
  requestId : Nat
  request : Json
  timerId : Nat
  timerDelayMs : Nat

/-- `MCPServerManager.callTool` (server-openai.js lines 83-111, identical in
server-enhanced.js lines 61-87): allocate `++this.requestId`, build the
JSON-RPC request, store the `{resolve, reject}` pair under the new id, write
the request, and schedule exactly one 10000 ms timeout for it. -/
def callTool (st : ManagerState) (toolName : String) (args : Json) : CallResult :=
  let rid := st.requestId + 1
  { newState := { requestId := rid, pending := st.pending ++ [rid] }
    requestId := rid
    request := Json.obj
      [("jsonrpc", Json.str "2.0"),
       ("id", Json.num rid 0),
       ("method", Json.str "call_tool"),
       ("params", Json.obj [("name", Json.str toolName), ("arguments", args)])]
    timerId := rid
    timerDelayMs := 10000 }

/-- The `setTimeout` callback of `callTool` firing for id `rid`
(server-openai.js lines 105-110): if `pendingRequests` still has `rid`,
delete it and reject the promise with `Error('MCP server timeout')`;
otherwise the callback does nothing. -/
def handleTimeout (st : ManagerState) (rid : Nat) : ManagerState × List Effect :=
  if rid ∈ st.pending then
    ({ st with pending := st.pending.erase rid }, [Effect.rejected rid "MCP server timeout"])
  else (st, [])

/-- An input to the bridge: a `callTool` invocation, a line from the worker's
stdout, or a timeout timer firing. -/
inductive Event where
  | call (name : String) (args : Json) : Event
  | line (s : String) : Event
  | timeout (id : Nat) : Event

/-- State after one event. -/
def stepState (st : ManagerState) : Event → ManagerState
  | Event.call name args => (callTool st name args).newState
  | Event.line s => (handleLine st s).1
  | Event.timeout n => (handleTimeout st n).1

/-- The request ids allocated by the `call` events of a run, in order. -/
def allocatedIds (st : ManagerState) : List Event → List Nat
  | [] => []
  | Event.call name args :: evs =>
    (callTool st name args).requestId :: allocatedIds (callTool st name args).newState evs
  | Event.line s :: evs => allocatedIds (handleLine st s).1 evs
  | Event.timeout n :: evs => allocatedIds (handleTimeout st n).1 evs

/-- Number of `call` events in a run. -/
def numCalls : List Event → Nat
  | [] => 0
  | Event.call _ _ :: evs => numCalls evs + 1
  | _ :: evs => numCalls evs

/-- The substring `server-openai.js` sniffs for before attempting to decode
an embedded structured payload. -/
def structMarker : String := "\"property\":"

/-- Result normalization in `app.post('/api/chat')` of server-openai.js
(lines 271-287): `content = result.result?.output || result.result ||
'No result returned'`; if `content` is a string containing `'"property":'`,
try `JSON.parse(content)`, and on success use `jsonData.formatted_text ||
content` as the content and keep `jsonData` as the structured data; on
parse failure (or when the sniff fails) the content is left as-is and the
structured data stays `null`. -/
def rawContent (result : Json) : Json :=
  jsOr (jsGetOpt (jsGet result "result") "output")
    (jsOr (jsGet result "result") (Json.str "No result returned"))

def normalizeResult (result : Json) : Json × Option Json :=
  match rawContent result with
  | Json.str s =>
    if includesStr s structMarker then
      match parseJson s with
      | some jsonData => (jsOr (jsGet jsonData "formatted_text") (Json.str s), some jsonData)
      | none => (Json.str s, none)
    else (Json.str s, none)
  | c => (c, none)

/-- One entry of `toolCallResults` as far as the response assembly reads it:
the normalized content and the `structuredData` attached to it (`none` both
for `null` and for the error-path entries that carry no such field). -/
structure ToolCallResult where
  content : Json
  structuredData : Option Json

/-- The success-path `toolCallResults.push({...})` entry for a raw worker
response. -/
def mkToolCallResult (result : Json) : ToolCallResult :=
  let p := normalizeResult result
  ⟨p.1, p.2⟩

/-- The selection loop of `app.post('/api/chat')` (server-openai.js lines
317-324): scan `toolCallResults` in order and take the first truthy
`structuredData`, leaving `null` when there is none. -/
def selectStructuredData : List ToolCallResult → Option Json
  | [] => none
  | r :: rs =>
    match r.structuredData with
    | some j => if jsTruthy j then some j else selectStructuredData rs
    | none => selectStructuredData rs

/-- The calculation branch of `app.post('/api/chat')` in server-enhanced.js
(lines 163-167): on `result.result && result.result.output` build the
calculation reply; otherwise on a truthy `result.error` reply
`` `I couldn't calculate that property. ${result.error.message}` ``; else
leave `response` unchanged. -/
def enhancedCalcReply (result : Json) (prop comp prior : String) : String :=
  if jsTruthyOpt (jsGet result "result") && jsTruthyOpt (jsGetOpt (jsGet result "result") "output") then
    "I'll calculate the " ++ (prop.replace "_" " ") ++ " of " ++ comp ++ " for you.\n\n"
      ++ jsTemplateOpt (jsGetOpt (jsGet result "result") "output")
  else if jsTruthyOpt (jsGet result "error") then
    "I couldn't calculate that property. " ++ jsTemplateOpt (jsGetOpt (jsGet result "error") "message")
  else prior

/-! ### Decomposition lemmas about the parser's consumption -/

theorem skipWs_decomp (l : List Char) :
    ∃ pre, l = pre ++ skipWs l ∧ ∀ c ∈ pre, isWsChar c = true := by
  induction l with
  | nil => exact ⟨[], rfl, by simp⟩
  | cons c t ih =>
    by_cases h : isWsChar c = true
    · obtain ⟨pre, hpre, hws⟩ := ih
      refine ⟨c :: pre, ?_, ?_⟩
      · simpa [skipWs, h] using congrArg (c :: ·) hpre
      · intro x hx
        rcases List.mem_cons.mp hx with rfl | hx
        · exact h
        · exact hws x hx
    · exact ⟨[], by simp [skipWs, h], by simp⟩

theorem skipWs_all_ws {l : List Char} (h : skipWs l = []) : ∀ c ∈ l, isWsChar c = true := by
  obtain ⟨pre, hpre, hws⟩ := skipWs_decomp l
  rw [h, List.append_nil] at hpre
  intro c hc
  exact hws c (hpre ▸ hc)

theorem takeDigits_decomp (l : List Char) :
    l = (takeDigits l).1 ++ (takeDigits l).2 ∧ ∀ c ∈ (takeDigits l).1, isDigitChar c = true := by
  induction l with
  | nil => simp [takeDigits]
  | cons c t ih =>
    by_cases h : isDigitChar c = true
    · refine ⟨?_, ?_⟩
      · simpa [takeDigits, h] using congrArg (c :: ·) ih.1
      · intro x hx
        simp only [takeDigits, h, if_true] at hx
        rcases List.mem_cons.mp hx with rfl | hx
        · exact h
        · exact ih.2 x hx
    · simp [takeDigits, h]

/-- The characters a JSON number literal may consist of. -/
def isNumChar (c : Char) : Bool :=
  isDigitChar c || c == '-' || c == '+' || c == '.' || c == 'e' || c == 'E'

theorem digit_isNumChar {c : Char} (h : isDigitChar c = true) : isNumChar c = true := by
  simp [isNumChar, h]

theorem parseSign_decomp (cs : List Char) :
    ∃ pre, cs = pre ++ (parseSign cs).2 ∧ ∀ c ∈ pre, isNumChar c = true := by
  match cs with
  | [] => exact ⟨[], rfl, by simp⟩
  | c :: t =>
    by_cases h : c == '-'
    · refine ⟨[c], ?_, ?_⟩
      · simp [parseSign, h]
      · intro x hx
        rcases List.mem_cons.mp hx with rfl | hx
        · rw [eq_of_beq h]; decide
        · simp at hx
    · exact ⟨[], by simp [parseSign, h], by simp⟩

theorem parseIntPart_decomp {cs d rest : List Char}
    (h : parseIntPart cs = some (d, rest)) :
    cs = d ++ rest ∧ ∀ c ∈ d, isDigitChar c = true := by
  match cs with
  | [] => simp [parseIntPart] at h
  | c :: t =>
    simp only [parseIntPart] at h
    by_cases h0 : c == '0'
    · rw [if_pos h0] at h
      obtain ⟨h1, h2⟩ := Prod.mk.injEq .. ▸ Option.some.inj h
      subst h1; subst h2
      refine ⟨by rw [eq_of_beq h0]; rfl, ?_⟩
      intro x hx
      rcases List.mem_cons.mp hx with rfl | hx
      · decide
      · simp at hx
    · rw [if_neg h0] at h
      by_cases hd : isDigitChar c = true
      · rw [if_pos hd] at h
        obtain ⟨h1, h2⟩ := Prod.mk.injEq .. ▸ Option.some.inj h
        subst h1; subst h2
        obtain ⟨ht, hdig⟩ := takeDigits_decomp t
        refine ⟨by simpa using congrArg (c :: ·) ht, ?_⟩
        intro x hx
        rcases List.mem_cons.mp hx with rfl | hx
        · exact hd
        · exact hdig x hx
      · rw [if_neg hd] at h
        exact absurd h (by simp)

theorem parseFrac_decomp {cs f rest : List Char}
    (h : parseFrac cs = some (f, rest)) :
    ∃ pre, cs = pre ++ rest ∧ ∀ c ∈ pre, isNumChar c = true := by
  match cs with
  | [] =>
    obtain ⟨h1, h2⟩ := Prod.mk.injEq .. ▸ Option.some.inj h
    subst h2
    exact ⟨[], rfl, by simp⟩
  | c :: t =>
    simp only [parseFrac] at h
    by_cases hc : c == '.'
    · rw [if_pos hc] at h
      by_cases he : (takeDigits t).1.isEmpty
      · rw [if_pos he] at h; exact absurd h (by simp)
      · rw [if_neg he] at h
        obtain ⟨h1, h2⟩ := Prod.mk.injEq .. ▸ Option.some.inj h
        subst h1; subst h2
        obtain ⟨ht, hdig⟩ := takeDigits_decomp t
        refine ⟨c :: (takeDigits t).1, by simpa using congrArg (c :: ·) ht, ?_⟩
        intro x hx
        rcases List.mem_cons.mp hx with rfl | hx
        · rw [eq_of_beq hc]; decide
        · exact digit_isNumChar (hdig x hx)
    · rw [if_neg hc] at h
      obtain ⟨h1, h2⟩ := Prod.mk.injEq .. ▸ Option.some.inj h
      subst h2
      exact ⟨[], rfl, by simp⟩

theorem parseExpTail_decomp {neg en : Bool} {u ed rest : List Char}
    (h : parseExpTail neg u = some (en, ed, rest)) :
    u = ed ++ rest ∧ ∀ c ∈ ed, isDigitChar c = true := by
  simp only [parseExpTail] at h
  by_cases he : (takeDigits u).1.isEmpty
  · rw [if_pos he] at h; exact absurd h (by simp)
  · rw [if_neg he] at h
    have h' := Option.some.inj h
    have h2 : (takeDigits u).1 = ed := congrArg (fun p => p.2.1) h'
    have h3 : (takeDigits u).2 = rest := congrArg (fun p => p.2.2) h'
    rw [← h2, ← h3]
    exact ⟨(takeDigits_decomp u).1, (takeDigits_decomp u).2⟩

theorem parseExpAfterE_decomp {t : List Char} {en : Bool} {ed rest : List Char}
    (h : parseExpAfterE t = some (en, ed, rest)) :
    ∃ pre, t = pre ++ rest ∧ ∀ c ∈ pre, isNumChar c = true := by
  match t with
  | [] => simp [parseExpAfterE] at h
  | d :: u =>
    simp only [parseExpAfterE] at h
    by_cases hd : d == '+'
    · rw [if_pos hd] at h
      obtain ⟨hu, hdig⟩ := parseExpTail_decomp h
      refine ⟨d :: ed, by simpa using congrArg (d :: ·) hu, ?_⟩
      intro x hx
      rcases List.mem_cons.mp hx with rfl | hx
      · rw [eq_of_beq hd]; decide
      · exact digit_isNumChar (hdig x hx)
    · rw [if_neg hd] at h
      by_cases hd2 : d == '-'
      · rw [if_pos hd2] at h
        obtain ⟨hu, hdig⟩ := parseExpTail_decomp h
        refine ⟨d :: ed, by simpa using congrArg (d :: ·) hu, ?_⟩
        intro x hx
        rcases List.mem_cons.mp hx with rfl | hx
        · rw [eq_of_beq hd2]; decide
        · exact digit_isNumChar (hdig x hx)
      · rw [if_neg hd2] at h
        obtain ⟨hu, hdig⟩ := parseExpTail_decomp h
        exact ⟨ed, hu, fun x hx => digit_isNumChar (hdig x hx)⟩

theorem parseExp_decomp {cs : List Char} {en : Bool} {ed rest : List Char}
    (h : parseExp cs = some (en, ed, rest)) :
    ∃ pre, cs = pre ++ rest ∧ ∀ c ∈ pre, isNumChar c = true := by
  match cs with
  | [] =>
    have h3 : [] = rest := congrArg (fun p => p.2.2) (Option.some.inj h)
    exact ⟨[], h3, by simp⟩
  | c :: t =>
    simp only [parseExp] at h
    by_cases hc : (c == 'e' || c == 'E') = true
    · rw [if_pos hc] at h
      have hcnum : isNumChar c = true := by
        rcases Bool.or_eq_true .. ▸ hc with h' | h'
        · rw [eq_of_beq h']; decide
        · rw [eq_of_beq h']; decide
      obtain ⟨pre, ht, hpre⟩ := parseExpAfterE_decomp h
      refine ⟨c :: pre, by simpa using congrArg (c :: ·) ht, ?_⟩
      intro x hx
      rcases List.mem_cons.mp hx with rfl | hx
      · exact hcnum
      · exact hpre x hx
    · rw [if_neg hc] at h
      have h3 : c :: t = rest := congrArg (fun p => p.2.2) (Option.some.inj h)
      exact ⟨[], h3, by simp⟩

theorem parseNumber_decomp {cs rest : List Char} {j : Json}
    (h : parseNumber cs = some (j, rest)) :
    ∃ pre, cs = pre ++ rest ∧ ∀ c ∈ pre, isNumChar c = true := by
  simp only [parseNumber] at h
  obtain ⟨pre0, hs, hs0⟩ := parseSign_decomp cs
  split at h
  · exact absurd h (by simp)
  next d cs2 hip =>
    obtain ⟨h2, hdig⟩ := parseIntPart_decomp hip
    split at h
    · exact absurd h (by simp)
    next f cs3 hfr =>
      obtain ⟨pre1, h3, h3n⟩ := parseFrac_decomp hfr
      split at h
      · exact absurd h (by simp)
      next en ed cs4 hex =>
        obtain ⟨pre2, h4, h4n⟩ := parseExp_decomp hex
        have hrest : cs4 = rest := congrArg (fun p => p.2) (Option.some.inj h)
        subst hrest
        refine ⟨pre0 ++ d ++ pre1 ++ pre2, ?_, ?_⟩
        · rw [hs, h2, h3, h4]; simp [List.append_assoc]
        · intro x hx
          simp only [List.mem_append] at hx
          rcases hx with ((hx | hx) | hx) | hx
          · exact hs0 x hx
          · exact digit_isNumChar (hdig x hx)
          · exact h3n x hx
          · exact h4n x hx

theorem parseStringBody_nil : ∀ {fuel : Nat} {cs r : List Char},
    parseStringBody fuel cs = some ([], r) → cs = '"' :: r := by
  intro fuel cs r h
  match fuel, cs with
  | 0, _ => simp [parseStringBody] at h
  | _ + 1, [] => simp [parseStringBody] at h
  | fuel + 1, c :: cs =>
    simp only [parseStringBody] at h
    by_cases h1 : c == '"'
    · rw [if_pos h1] at h
      obtain ⟨_, h3⟩ := Prod.mk.injEq .. ▸ Option.some.inj h
      rw [eq_of_beq h1, h3]
    · rw [if_neg h1] at h
      by_cases h2 : c == '\\'
      · rw [if_pos h2] at h
        split at h
        · exact absurd h (by simp)
        · split at h
          · exact absurd h (by simp)
          · obtain ⟨h4, _⟩ := Prod.mk.injEq .. ▸ Option.some.inj h
            exact absurd h4 (by simp)
      · rw [if_neg h2] at h
        by_cases h3 : c.toNat < 32
        · rw [if_pos h3] at h; exact absurd h (by simp)
        · rw [if_neg h3] at h
          split at h
          · exact absurd h (by simp)
          · obtain ⟨h4, _⟩ := Prod.mk.injEq .. ▸ Option.some.inj h
            exact absurd h4 (by simp)

theorem not_p_of_ws {l : List Char} (h : ∀ c ∈ l, isWsChar c = true) : 'p' ∉ l :=
  fun hm => absurd (h 'p' hm) (by decide)

theorem not_p_of_num {l : List Char} (h : ∀ c ∈ l, isNumChar c = true) : 'p' ∉ l :=
  fun hm => absurd (h 'p' hm) (by decide)

set_option maxHeartbeats 2000000 in
/-- A parsed value that is falsy can only come from the leaf productions
`null`, `false`, a zero number or the empty string, none of which can put the
character `p` into the consumed input. -/
theorem parseVal_falsy_no_p {fuel : Nat} {cs rest : List Char} {j : Json}
    (h : parseVal fuel cs = some (j, rest)) (hf : jsTruthy j = false) :
    ∃ pre, cs = pre ++ rest ∧ 'p' ∉ pre := by
  match fuel with
  | 0 => simp [parseVal] at h
  | fuel + 1 =>
    rw [parseVal] at h
    obtain ⟨ws1, hws1, hws1w⟩ := skipWs_decomp cs
    split at h
    case _ t heq =>
      split at h
      · have hj : Json.obj [] = j := (Prod.mk.injEq .. ▸ Option.some.inj h).1
        rw [← hj] at hf
        simp [jsTruthy] at hf
      · split at h
        · next kvs r _ =>
          have hj : Json.obj kvs = j := (Prod.mk.injEq .. ▸ Option.some.inj h).1
          rw [← hj] at hf
          simp [jsTruthy] at hf
        · exact absurd h (by simp)
    case _ t heq =>
      split at h
      · have hj : Json.arr [] = j := (Prod.mk.injEq .. ▸ Option.some.inj h).1
        rw [← hj] at hf
        simp [jsTruthy] at hf
      · split at h
        · next xs r _ =>
          have hj : Json.arr xs = j := (Prod.mk.injEq .. ▸ Option.some.inj h).1
          rw [← hj] at hf
          simp [jsTruthy] at hf
        · exact absurd h (by simp)
    case _ t heq =>
      split at h
      · next body r hbody =>
        obtain ⟨hj, hr⟩ := Prod.mk.injEq .. ▸ Option.some.inj h
        have hempty : body = [] := by
          rw [← hj] at hf
          simp only [jsTruthy, bne_eq_false_iff_eq] at hf
          have := congrArg String.data hf
          simpa using this
        rw [hempty] at hbody
        have ht : t = '"' :: r := parseStringBody_nil hbody
        refine ⟨ws1 ++ ['"', '"'], ?_, ?_⟩
        · rw [hws1, heq, ht, hr]; simp
        · intro hm
          rcases List.mem_append.mp hm with hm | hm
          · exact not_p_of_ws hws1w hm
          · simp at hm
      · exact absurd h (by simp)
    case _ =>
      rename_i heqn
      obtain ⟨hj, hr⟩ := Prod.mk.injEq .. ▸ Option.some.inj h
      refine ⟨ws1 ++ ['n', 'u', 'l', 'l'], ?_, ?_⟩
      · rw [hws1, heqn, ← hr]; simp
      · intro hm
        rcases List.mem_append.mp hm with hm | hm
        · exact not_p_of_ws hws1w hm
        · simp at hm
    case _ =>
      obtain ⟨hj, hr⟩ := Prod.mk.injEq .. ▸ Option.some.inj h
      rw [← hj] at hf
      simp [jsTruthy] at hf
    case _ =>
      rename_i heqf
      obtain ⟨hj, hr⟩ := Prod.mk.injEq .. ▸ Option.some.inj h
      refine ⟨ws1 ++ ['f', 'a', 'l', 's', 'e'], ?_, ?_⟩
      · rw [hws1, heqf, ← hr]; simp
      · intro hm
        rcases List.mem_append.mp hm with hm | hm
        · exact not_p_of_ws hws1w hm
        · simp at hm
    case _ =>
      obtain ⟨pre2, hsk, hpre2⟩ := parseNumber_decomp h
      refine ⟨ws1 ++ pre2, ?_, ?_⟩
      · rw [hws1, hsk]; simp
      · intro hm
        rcases List.mem_append.mp hm with hm | hm
        · exact not_p_of_ws hws1w hm
        · exact not_p_of_num hpre2 hm

/-- A `JSON.parse` result that is falsy cannot come from a string containing
the character `p`. -/
theorem parseJson_falsy_no_p {s : String} {j : Json}
    (h : parseJson s = some j) (hf : jsTruthy j = false) : 'p' ∉ s.data := by
  unfold parseJson at h
  split at h
  case _ j' rest heq =>
    split at h
    case isTrue hrest =>
      have hj : j' = j := Option.some.inj h
      rw [hj] at heq
      obtain ⟨pre, hcs, hp⟩ := parseVal_falsy_no_p heq hf
      intro hm
      rw [hcs] at hm
      rcases List.mem_append.mp hm with hm | hm
      · exact hp hm
      · exact absurd (skipWs_all_ws hrest 'p' hm) (by decide)
    case isFalse => exact absurd h (by simp)
  case _ => exact absurd h (by simp)

theorem isPrefixList_subset {n hay : List Char} (hp : isPrefixList n hay = true) :
    ∀ c ∈ n, c ∈ hay := by
  induction n generalizing hay with
  | nil => simp
  | cons a as ih =>
    match hay with
    | [] => simp [isPrefixList] at hp
    | b :: bs =>
      simp only [isPrefixList, Bool.and_eq_true] at hp
      intro c hc
      rcases List.mem_cons.mp hc with rfl | hc
      · have hab : c = b := eq_of_beq hp.1
        rw [hab]
        exact List.mem_cons_self _ _
      · exact List.mem_cons_of_mem _ (ih hp.2 c hc)

theorem hasSubstr_subset {n hay : List Char} (hs : hasSubstr n hay = true) :
    ∀ c ∈ n, c ∈ hay := by
  induction hay with
  | nil =>
    intro c hc
    simp only [hasSubstr, List.isEmpty_iff] at hs
    rw [hs] at hc
    simp at hc
  | cons b bs ih =>
    rcases Bool.or_eq_true .. ▸ hs with hs' | hs'
    · exact isPrefixList_subset hs'
    · intro c hc
      exact List.mem_cons_of_mem _ (ih hs' c hc)

theorem includes_marker_p_mem {s : String} (h : includesStr s structMarker = true) :
    'p' ∈ s.data :=
  hasSubstr_subset h 'p' (by decide)

/-- A string that passes the `'"property":'` sniff and parses as JSON always
parses to a truthy value. -/
theorem marker_parse_truthy {s : String} {j : Json}
    (hm : includesStr s structMarker = true) (hp : parseJson s = some j) :
    jsTruthy j = true := by
  cases htr : jsTruthy j with
  | true => rfl
  | false => exact absurd (includes_marker_p_mem hm) (parseJson_falsy_no_p hp htr)

theorem includes_marker_ne_empty {s : String} (h : includesStr s structMarker = true) :
    s ≠ "" := by
  intro he
  rw [he] at h
  exact absurd h (by decide)

/-- Whenever the normalizer attaches structured data, that data is truthy
(the sniff guarantees the decoded value contains the character `p`, which no
falsy JSON document can). -/
theorem normalizeResult_structured_truthy {result j : Json}
    (h : (normalizeResult result).2 = some j) : jsTruthy j = true := by
  unfold normalizeResult at h
  split at h
  next s =>
    split at h
    next hm =>
      split at h
      next jd hp =>
        have hj : jd = j := Option.some.inj (by simpa using h)
        rw [← hj]
        exact marker_parse_truthy hm hp
      next => simp at h
    next => simp at h
  next => simp at h

theorem idMatches_unique {v : Option Json} {n m : Nat}
    (hn : idMatches v n = true) (hm : idMatches v m = true) : n = m := by
  cases v with
  | none => simp [idMatches] at hn
  | some j =>
    cases j with
    | num mm sc =>
      simp only [idMatches, Bool.and_eq_true, beq_iff_eq] at hn hm
      have h2 : (n : Int) = (m : Int) := hn.2.symm.trans hm.2
      exact_mod_cast h2
    | null => simp [idMatches] at hn
    | bool b => simp [idMatches] at hn
    | str s => simp [idMatches] at hn
    | arr xs => simp [idMatches] at hn
    | obj kvs => simp [idMatches] at hn

/-- A response id can match at most one pending key, so `Map.has` finds
exactly the pending entry whose key is the response's id. -/
theorem find?_idMatches {l : List Nat} {v : Option Json} {n : Nat}
    (hmem : n ∈ l) (hn : idMatches v n = true) :
    l.find? (fun m => idMatches v m) = some n := by
  induction l with
  | nil => simp at hmem
  | cons a t ih =>
    by_cases ha : idMatches v a = true
    · have han : a = n := idMatches_unique ha hn
      subst han
      exact List.find?_cons_of_pos _ ha
    · rcases List.mem_cons.mp hmem with rfl | hmem'
      · exact absurd hn ha
      · rw [List.find?_cons_of_neg _ ha]
        exact ih hmem'

theorem handleLine_requestId (st : ManagerState) (line : String) :
    (handleLine st line).1.requestId = st.requestId := by
  unfold handleLine
  split
  · rfl
  · split <;> rfl

theorem handleTimeout_requestId (st : ManagerState) (rid : Nat) :
    (handleTimeout st rid).1.requestId = st.requestId := by
  unfold handleTimeout
  split <;> rfl

/-- Every line-handler outcome: either a no-op, or the removal and resolution
of exactly the pending entry whose key equals the parsed response's id. -/
theorem handleLine_cases (st : ManagerState) (line : String) :
    handleLine st line = (st, []) ∨
    ∃ n resp, parseJson line = some resp ∧ idMatches (jsGet resp "id") n = true ∧
      n ∈ st.pending ∧
      handleLine st line = ({ st with pending := st.pending.erase n }, [Effect.resolved n resp]) := by
  unfold handleLine
  cases hp : parseJson line with
  | none => left; rfl
  | some resp =>
    cases hf : st.pending.find? (fun n => idMatches (jsGet resp "id") n) with
    | none => left; simp only [hf]
    | some n =>
      right
      exact ⟨n, resp, rfl, List.find?_some hf, List.mem_of_find?_eq_some hf, by simp only [hf]⟩

/-- The line handler on a parsed response whose id is pending: remove the
entry and resolve it with the whole response. -/
theorem handleLine_resolves {st : ManagerState} {line : String} {n : Nat} {resp : Json}
    (hp : parseJson line = some resp) (hid : idMatches (jsGet resp "id") n = true)
    (hmem : n ∈ st.pending) :
    handleLine st line = ({ st with pending := st.pending.erase n }, [Effect.resolved n resp]) := by
  simp only [handleLine, hp, find?_idMatches hmem hid]

/-- Bridge-state invariant: pending keys are distinct and bounded by the
id counter. -/
def Invariant (st : ManagerState) : Prop :=
  st.pending.Nodup ∧ ∀ n ∈ st.pending, 1 ≤ n ∧ n ≤ st.requestId

theorem initState_invariant : Invariant initState := by
  constructor
  · exact List.nodup_nil
  · intro n hn
    simp [initState] at hn

theorem stepState_invariant {st : ManagerState} (h : Invariant st) (e : Event) :
    Invariant (stepState st e) := by
  obtain ⟨hnd, hbound⟩ := h
  cases e with
  | call name args =>
    constructor
    · simp only [stepState, callTool]
      rw [List.nodup_append]
      refine ⟨hnd, List.nodup_singleton _, ?_⟩
      intro a ha hb
      rw [List.mem_singleton] at hb
      subst hb
      exact absurd (hbound _ ha).2 (by omega)
    · intro n hn
      simp only [stepState, callTool] at hn ⊢
      rcases List.mem_append.mp hn with hn | hn
      · have := hbound n hn
        omega
      · rw [List.mem_singleton] at hn
        subst hn
        omega
  | line s =>
    rcases handleLine_cases st s with heq | ⟨n, resp, _, _, _, heq⟩
    · constructor
      · simp only [stepState, heq]
        exact hnd
      · intro m hm
        simp only [stepState, heq] at hm ⊢
        exact hbound m hm
    · constructor
      · simp only [stepState, heq]
        exact hnd.erase n
      · intro m hm
        simp only [stepState, heq] at hm ⊢
        exact hbound m (List.mem_of_mem_erase hm)
  | timeout n =>
    constructor
    · simp only [stepState, handleTimeout]
      split
      · exact hnd.erase n
      · exact hnd
    · intro m hm
      simp only [stepState, handleTimeout] at hm ⊢
      split at hm <;> split
      · exact hbound m (List.mem_of_mem_erase hm)
      · exact hbound m (List.mem_of_mem_erase hm)
      · exact hbound m hm
      · exact hbound m hm

theorem reachable_invariant (evs : List Event) :
    Invariant (evs.foldl stepState initState) := by
  have h : ∀ st, Invariant st → Invariant (evs.foldl stepState st) := by
    induction evs with
    | nil => exact fun st h => h
    | cons e evs ih => exact fun st h => ih _ (stepState_invariant h e)
  exact h initState initState_invariant

theorem allocatedIds_range' (evs : List Event) : ∀ st : ManagerState,
    allocatedIds st evs = List.range' (st.requestId + 1) (numCalls evs) := by
  induction evs with
  | nil => intro st; rfl
  | cons e evs ih =>
    intro st
    cases e with
    | call name args =>
      simp only [allocatedIds, numCalls, callTool, ih, List.range'_succ]
    | line s =>
      simp only [allocatedIds, numCalls, ih, handleLine_requestId]
    | timeout n =>
      simp only [allocatedIds, numCalls, ih, handleTimeout_requestId]

/-- When every attached `structuredData` is truthy, the selection loop picks
exactly the first tool result that carries one. -/
theorem selectStructuredData_eq_findSome? {trs : List ToolCallResult}
    (h : ∀ r ∈ trs, ∀ j, r.structuredData = some j → jsTruthy j = true) :
    selectStructuredData trs = (trs.map (fun r => r.structuredData)).findSome? id := by
  induction trs with
  | nil => rfl
  | cons r rs ih =>
    simp only [List.map_cons, List.findSome?_cons]
    cases hr : r.structuredData with
    | none =>
      simp only [selectStructuredData, hr, id]
      exact ih (fun x hx => h x (List.mem_cons_of_mem _ hx))
    | some j =>
      have ht := h r (List.mem_cons_self ..) j hr
      simp only [selectStructuredData, hr, ht, if_true, id]

/-- Claim C1: for every request id, at most one of resolution (by a matching
worker response) and rejection (by the timeout) has an observable effect;
whichever fires second finds no entry in `pendingRequests` and is a no-op,
and a worker response for an id that is not pending (timed out, already
resolved, or never issued) is silently discarded. -/
theorem claim1_resolve_timeout_exclusive (st : ManagerState) (n : Nat)
    (hnd : st.pending.Nodup) :
    (∀ line r, Effect.resolved n r ∈ (handleLine st line).2 →
      handleTimeout (handleLine st line).1 n = ((handleLine st line).1, []))
    ∧ ((handleTimeout st n).2 ≠ [] →
      ∀ line e, e ∈ (handleLine (handleTimeout st n).1 line).2 → effectId e ≠ n)
    ∧ (n ∉ st.pending →
      handleTimeout st n = (st, []) ∧ ∀ line r, Effect.resolved n r ∉ (handleLine st line).2) := by
  refine ⟨?_, ?_, ?_⟩
  · intro line r hmem
    rcases handleLine_cases st line with heq | ⟨m, resp, hp, hid, hm, heq⟩
    · rw [heq] at hmem; simp at hmem
    · rw [heq] at hmem
      rw [List.mem_singleton] at hmem
      obtain ⟨hnm, hrr⟩ := Effect.resolved.inj hmem
      subst hnm
      have hnotin : n ∉ ({ st with pending := st.pending.erase n } : ManagerState).pending := by
        intro hin
        exact absurd (hnd.mem_erase_iff.mp hin).1 (by simp)
      rw [heq]
      simp only [handleTimeout, if_neg hnotin]
  · intro hne line e hmem
    by_cases hn : n ∈ st.pending
    · have hts : handleTimeout st n
          = ({ st with pending := st.pending.erase n }, [Effect.rejected n "MCP server timeout"]) := by
        simp only [handleTimeout, if_pos hn]
      rw [hts] at hmem
      rcases handleLine_cases { st with pending := st.pending.erase n } line with heq | ⟨m, resp, hp, hid, hm, heq⟩
      · rw [heq] at hmem; simp at hmem
      · rw [heq] at hmem
        rw [List.mem_singleton] at hmem
        subst hmem
        simp only [effectId]
        intro hmn
        subst hmn
        exact absurd (hnd.mem_erase_iff.mp hm).1 (by simp)
    · have hno : handleTimeout st n = (st, []) := by simp only [handleTimeout, if_neg hn]
      rw [hno] at hne
      exact absurd rfl hne
  · intro hn
    refine ⟨by simp only [handleTimeout, if_neg hn], ?_⟩
    intro line r hmem
    rcases handleLine_cases st line with heq | ⟨m, resp, hp, hid, hm, heq⟩
    · rw [heq] at hmem; simp at hmem
    · rw [heq] at hmem
      rw [List.mem_singleton] at hmem
      obtain ⟨hnm, _⟩ := Effect.resolved.inj hmem
      subst hnm
      exact hn hm

/-- Witness for C1: with id 1 pending, a matching response resolves it and the
subsequently firing timer is a no-op. -/
theorem claim1_witness :
    handleTimeout (handleLine ⟨1, [1]⟩ "\x7b\"id\":1,\"result\":\x7b\"output\":\"ok\"\x7d\x7d").1 1
      = ((handleLine ⟨1, [1]⟩ "\x7b\"id\":1,\"result\":\x7b\"output\":\"ok\"\x7d\x7d").1, []) :=
  (claim1_resolve_timeout_exclusive ⟨1, [1]⟩ 1 (by decide)).1
    "\x7b\"id\":1,\"result\":\x7b\"output\":\"ok\"\x7d\x7d"
    (Json.obj [("id", Json.num 1 0), ("result", Json.obj [("output", Json.str "ok")])])
    (List.mem_singleton.mpr rfl)

/-- Counterexample to C2 as stated: a worker response carrying an error field
for pending id 3 does not reject that promise with the worker's message; the
line handler resolves it with the whole response object. -/
theorem claim2_counterexample :
    (handleLine ⟨3, [3]⟩ "\x7b\"id\":3,\"error\":\x7b\"message\":\"not found\"\x7d\x7d").2
      = [Effect.resolved 3 (Json.obj [("id", Json.num 3 0), ("error", Json.obj [("message", Json.str "not found")])])]
    ∧ Effect.rejected 3 "not found" ∉ (handleLine ⟨3, [3]⟩ "\x7b\"id\":3,\"error\":\x7b\"message\":\"not found\"\x7d\x7d").2 :=
  ⟨rfl, fun hmem => Effect.noConfusion (List.mem_singleton.mp hmem)⟩

/-- Claim C2 (amended): a worker response carrying an error field for a
pending id fulfills that invocation's promise with the entire raw response
(the reject handle is not called); the worker-supplied message then surfaces
verbatim in the chat reply built by server-enhanced.js's `result.error`
branch, and invocations pending on other ids stay pending. -/
theorem claim2_amended_worker_error (st : ManagerState) (line : String) (n : Nat)
    (r e : Json) (msg prop comp prior : String)
    (hp : parseJson line = some r)
    (hid : idMatches (jsGet r "id") n = true)
    (hmem : n ∈ st.pending)
    (hres : jsGet r "result" = none)
    (herr : jsGet r "error" = some e)
    (hmsg : jsGet e "message" = some (Json.str msg)) :
    handleLine st line = ({ st with pending := st.pending.erase n }, [Effect.resolved n r])
    ∧ (∀ m ∈ st.pending, m ≠ n → m ∈ (handleLine st line).1.pending)
    ∧ enhancedCalcReply r prop comp prior = "I couldn't calculate that property. " ++ msg := by
  have hres1 := handleLine_resolves hp hid hmem
  refine ⟨hres1, ?_, ?_⟩
  · intro m hm hne
    rw [hres1]
    exact (List.mem_erase_of_ne hne).mpr hm
  · have he : jsTruthy e = true := by
      cases e <;> simp_all [jsGet, jsTruthy]
    unfold enhancedCalcReply
    rw [hres, herr]
    simp [jsTruthyOpt, jsGetOpt, he, hmsg, jsTemplateOpt, jsTemplate]

/-- Witness for C2 (amended) at the spec's concrete scenario: response
`{id: 3, error: {message: "not found"}}` with ids 3 and 4 pending. -/
theorem claim2_witness :
    handleLine ⟨4, [3, 4]⟩ "\x7b\"id\":3,\"error\":\x7b\"message\":\"not found\"\x7d\x7d"
      = (⟨4, [4]⟩, [Effect.resolved 3 (Json.obj [("id", Json.num 3 0), ("error", Json.obj [("message", Json.str "not found")])])])
    ∧ (∀ m ∈ (⟨4, [3, 4]⟩ : ManagerState).pending, m ≠ 3 →
        m ∈ (handleLine ⟨4, [3, 4]⟩ "\x7b\"id\":3,\"error\":\x7b\"message\":\"not found\"\x7d\x7d").1.pending)
    ∧ enhancedCalcReply
        (Json.obj [("id", Json.num 3 0), ("error", Json.obj [("message", Json.str "not found")])])
        "vapor_pressure" "water" ""
      = "I couldn't calculate that property. not found" :=
  claim2_amended_worker_error ⟨4, [3, 4]⟩ "\x7b\"id\":3,\"error\":\x7b\"message\":\"not found\"\x7d\x7d" 3
    (Json.obj [("id", Json.num 3 0), ("error", Json.obj [("message", Json.str "not found")])])
    (Json.obj [("message", Json.str "not found")])
    "not found" "vapor_pressure" "water" ""
    rfl rfl (by decide) rfl rfl rfl

/-- Claim C3: `callTool` schedules exactly one timer per registration, with
the fixed 10000 ms delay, keyed by the freshly allocated id, which is pending
in the successor state; when the timer fires with the id still pending, the
entry is removed and its promise rejected with `'MCP server timeout'` (and
only then, at the scheduled 10-second mark); when the id is no longer
pending, the firing is a no-op. -/
theorem claim3_timeout_contract (st : ManagerState) (name : String) (args : Json) :
    (callTool st name args).timerDelayMs = 10000
    ∧ (callTool st name args).timerId = (callTool st name args).requestId
    ∧ (callTool st name args).requestId ∈ (callTool st name args).newState.pending
    ∧ (∀ st2 : ManagerState, (callTool st name args).requestId ∈ st2.pending →
        handleTimeout st2 (callTool st name args).requestId
          = ({ st2 with pending := st2.pending.erase (callTool st name args).requestId },
             [Effect.rejected (callTool st name args).requestId "MCP server timeout"]))
    ∧ (∀ st2 : ManagerState, (callTool st name args).requestId ∉ st2.pending →
        handleTimeout st2 (callTool st name args).requestId = (st2, [])) := by
  refine ⟨rfl, rfl, ?_, ?_, ?_⟩
  · simp [callTool]
  · intro st2 hmem
    simp only [handleTimeout, if_pos hmem]
  · intro st2 hmem
    simp only [handleTimeout, if_neg hmem]

/-- Witness for C3: the first call's timer fires against a state where id 1
is still pending (rejecting it) and against one where it is not (no-op). -/
theorem claim3_witness :
    handleTimeout ⟨1, [1]⟩ 1 = (⟨1, []⟩, [Effect.rejected 1 "MCP server timeout"])
    ∧ handleTimeout ⟨1, []⟩ 1 = (⟨1, []⟩, []) := by
  have h := claim3_timeout_contract initState "calculate_property" (Json.obj [])
  exact ⟨h.2.2.2.1 ⟨1, [1]⟩ (by decide), h.2.2.2.2 ⟨1, []⟩ (by decide)⟩

/-- Claim C4: responses are matched to pending calls purely by the id field:
any resolution delivers the parsed line itself to the call whose key equals
the response's id, and in the concrete out-of-order scenario (ids 1 and 2
issued in order, worker answers 2 then 1) call 2 is resolved first, each
with the payload carrying its own id. -/
theorem claim4_id_matching :
    (∀ (st : ManagerState) (line : String) (n : Nat) (r : Json),
        Effect.resolved n r ∈ (handleLine st line).2 →
        parseJson line = some r ∧ idMatches (jsGet r "id") n = true ∧ n ∈ st.pending)
    ∧ (callTool (callTool initState "calculate_property" (Json.obj [])).newState
        "calculate_property" (Json.obj [])).newState = ⟨2, [1, 2]⟩
    ∧ handleLine ⟨2, [1, 2]⟩ "\x7b\"id\":2,\"result\":\x7b\"output\":\"second\"\x7d\x7d"
        = (⟨2, [1]⟩, [Effect.resolved 2 (Json.obj [("id", Json.num 2 0), ("result", Json.obj [("output", Json.str "second")])])])
    ∧ handleLine ⟨2, [1]⟩ "\x7b\"id\":1,\"result\":\x7b\"output\":\"first\"\x7d\x7d"
        = (⟨2, []⟩, [Effect.resolved 1 (Json.obj [("id", Json.num 1 0), ("result", Json.obj [("output", Json.str "first")])])]) := by
  refine ⟨?_, rfl, rfl, rfl⟩
  intro st line n r hmem
  rcases handleLine_cases st line with heq | ⟨m, resp, hp, hid, hm, heq⟩
  · rw [heq] at hmem; simp at hmem
  · rw [heq] at hmem
    rw [List.mem_singleton] at hmem
    obtain ⟨hnm, hrr⟩ := Effect.resolved.inj hmem
    subst hnm; subst hrr
    exact ⟨hp, hid, hm⟩

/-- Witness for C4's universally quantified part, at the out-of-order
scenario's first response. -/
theorem claim4_witness :
    parseJson "\x7b\"id\":2,\"result\":\x7b\"output\":\"second\"\x7d\x7d"
      = some (Json.obj [("id", Json.num 2 0), ("result", Json.obj [("output", Json.str "second")])])
    ∧ idMatches (jsGet (Json.obj [("id", Json.num 2 0), ("result", Json.obj [("output", Json.str "second")])]) "id") 2 = true
    ∧ 2 ∈ (⟨2, [1, 2]⟩ : ManagerState).pending :=
  claim4_id_matching.1 ⟨2, [1, 2]⟩ "\x7b\"id\":2,\"result\":\x7b\"output\":\"second\"\x7d\x7d" 2
    (Json.obj [("id", Json.num 2 0), ("result", Json.obj [("output", Json.str "second")])])
    (List.mem_singleton.mpr rfl)

/-- Counterexample to C5 as stated: an output string that decodes as JSON to
a mapping with a `property` field (and even a `formatted_text` field) but has
whitespace before the colon fails the literal `'"property":'` substring
sniff, so the normalizer keeps the raw string and leaves structuredData
null, instead of extracting the formatted text and the mapping. -/
theorem claim5_counterexample :
    parseJson "\x7b\"property\" : \"density\", \"formatted_text\": \"997.0 kg/m3\"\x7d"
      = some (Json.obj [("property", Json.str "density"), ("formatted_text", Json.str "997.0 kg/m3")])
    ∧ jsGet (Json.obj [("property", Json.str "density"), ("formatted_text", Json.str "997.0 kg/m3")]) "property"
      = some (Json.str "density")
    ∧ normalizeResult (Json.obj [("result", Json.obj [("output",
        Json.str "\x7b\"property\" : \"density\", \"formatted_text\": \"997.0 kg/m3\"\x7d")])])
      = (Json.str "\x7b\"property\" : \"density\", \"formatted_text\": \"997.0 kg/m3\"\x7d", none)
    ∧ (normalizeResult (Json.obj [("result", Json.obj [("output",
        Json.str "\x7b\"property\" : \"density\", \"formatted_text\": \"997.0 kg/m3\"\x7d")])])).1
      ≠ Json.str "997.0 kg/m3" :=
  ⟨rfl, rfl, rfl, fun h => absurd (Json.str.inj h) (by decide)⟩

/-- Claim C5 (amended): for every successful tool result whose output string
contains the literal substring `'"property":'` and decodes as JSON, the
normalizer stores the whole decoded value as structuredData and, whenever the
decoded value's `formatted_text` field is present and truthy, uses it as the
display content; the spec's density example behaves exactly as stated. -/
theorem claim5_amended_normalizer (s : String) (j : Json)
    (hm : includesStr s structMarker = true)
    (hp : parseJson s = some j) :
    (normalizeResult (Json.obj [("result", Json.obj [("output", Json.str s)])])).2 = some j
    ∧ ∀ v, jsGet j "formatted_text" = some v → jsTruthy v = true →
        (normalizeResult (Json.obj [("result", Json.obj [("output", Json.str s)])])).1 = v := by
  have hne : s ≠ "" := includes_marker_ne_empty hm
  have hst : jsTruthy (Json.str s) = true := by
    simp only [jsTruthy, bne_iff_ne, ne_eq]
    exact hne
  have hraw : rawContent (Json.obj [("result", Json.obj [("output", Json.str s)])]) = Json.str s := by
    show jsOr (some (Json.str s)) (jsOr (some (Json.obj [("output", Json.str s)])) (Json.str "No result returned"))
      = Json.str s
    simp [jsOr, hst]
  have hnorm : normalizeResult (Json.obj [("result", Json.obj [("output", Json.str s)])])
      = (jsOr (jsGet j "formatted_text") (Json.str s), some j) := by
    simp [normalizeResult, hraw, hm, hp]
  refine ⟨by rw [hnorm], ?_⟩
  intro v hv htv
  rw [hnorm, hv]
  simp [jsOr, htv]

/-- Witness for C5 (amended): the spec's density example. -/
theorem claim5_witness :
    (normalizeResult (Json.obj [("result", Json.obj [("output",
        Json.str "\x7b\"property\":\"density\",\"formatted_text\":\"997.0 kg/m3\",\"value\":997.0\x7d")])])).2
      = some (Json.obj [("property", Json.str "density"), ("formatted_text", Json.str "997.0 kg/m3"),
          ("value", Json.num 997 0)])
    ∧ (normalizeResult (Json.obj [("result", Json.obj [("output",
        Json.str "\x7b\"property\":\"density\",\"formatted_text\":\"997.0 kg/m3\",\"value\":997.0\x7d")])])).1
      = Json.str "997.0 kg/m3" := by
  have h := claim5_amended_normalizer
    "\x7b\"property\":\"density\",\"formatted_text\":\"997.0 kg/m3\",\"value\":997.0\x7d"
    (Json.obj [("property", Json.str "density"), ("formatted_text", Json.str "997.0 kg/m3"),
      ("value", Json.num 997 0)])
    rfl rfl
  exact ⟨h.1, h.2 (Json.str "997.0 kg/m3") rfl rfl⟩

/-- Counterexample to C6 as stated: the successful tool result
`{result: {output: ""}}` has a string output with no structured marker, but
the normalizer does not return the plain text `""`: the empty string is
falsy, so `result.result?.output || result.result` falls through to the
containing mapping, which becomes the content. -/
theorem claim6_counterexample :
    normalizeResult (Json.obj [("result", Json.obj [("output", Json.str "")])])
      = (Json.obj [("output", Json.str "")], none)
    ∧ Json.obj [("output", Json.str "")] ≠ Json.str "" :=
  ⟨rfl, fun h => Json.noConfusion h⟩

/-- Claim C6 (amended): for every successful tool result whose output is a
non-empty string that either lacks the `'"property":'` marker or fails to
decode as JSON, the normalizer returns the plain text with structuredData
null. -/
theorem claim6_amended_plain (s : String) (hne : s ≠ "")
    (h : includesStr s structMarker = false ∨ parseJson s = none) :
    normalizeResult (Json.obj [("result", Json.obj [("output", Json.str s)])])
      = (Json.str s, none) := by
  have hst : jsTruthy (Json.str s) = true := by
    simp only [jsTruthy, bne_iff_ne, ne_eq]
    exact hne
  have hraw : rawContent (Json.obj [("result", Json.obj [("output", Json.str s)])]) = Json.str s := by
    show jsOr (some (Json.str s)) (jsOr (some (Json.obj [("output", Json.str s)])) (Json.str "No result returned"))
      = Json.str s
    simp [jsOr, hst]
  rcases h with h | h
  · simp [normalizeResult, hraw, h]
  · by_cases hm : includesStr s structMarker = true
    · simp [normalizeResult, hraw, hm, h]
    · simp [normalizeResult, hraw, hm]

/-- Witness for C6 (amended): the spec's round-trip example `{output: "X"}`
and a marker-bearing string that is not valid JSON. -/
theorem claim6_witness :
    normalizeResult (Json.obj [("result", Json.obj [("output", Json.str "X")])])
      = (Json.str "X", none)
    ∧ normalizeResult (Json.obj [("result", Json.obj [("output", Json.str "bad \"property\": json")])])
      = (Json.str "bad \"property\": json", none) :=
  ⟨claim6_amended_plain "X" (by decide) (Or.inl rfl),
   claim6_amended_plain "bad \"property\": json" (by decide) (Or.inr rfl)⟩

/-- Claim C7: across any run of bridge events starting from the constructor
state, the ids allocated by `callTool` are exactly `1, 2, 3, ...` in order:
unique, strictly increasing, never reused, and the first allocated id is 1. -/
theorem claim7_id_allocation (evs : List Event) :
    allocatedIds initState evs = List.range' 1 (numCalls evs)
    ∧ (allocatedIds initState evs).Pairwise (· < ·)
    ∧ (allocatedIds initState evs).Nodup
    ∧ (allocatedIds initState evs).head? = (if numCalls evs = 0 then none else some 1) := by
  have h : allocatedIds initState evs = List.range' 1 (numCalls evs) :=
    allocatedIds_range' evs initState
  refine ⟨h, ?_, ?_, ?_⟩
  · rw [h]; exact List.pairwise_lt_range' 1 (numCalls evs)
  · rw [h]; exact List.nodup_range' 1 (numCalls evs)
  · rw [h]
    cases hn : numCalls evs with
    | zero => rfl
    | succ k => rw [List.range'_succ]; rfl

/-- Claim C8: a worker line that fails to parse as JSON is dropped: the state
is unchanged, no pending call is settled, and every subsequent line is
processed exactly as it would have been without the bad line. -/
theorem claim8_malformed_line (st : ManagerState) (line : String)
    (h : parseJson line = none) :
    handleLine st line = (st, [])
    ∧ ∀ line2, handleLine (handleLine st line).1 line2 = handleLine st line2 := by
  have h1 : handleLine st line = (st, []) := by
    unfold handleLine
    rw [h]
  exact ⟨h1, fun line2 => by rw [h1]⟩

/-- Witness for C8 at a diagnostic non-JSON line with calls pending. -/
theorem claim8_witness :
    handleLine ⟨2, [1, 2]⟩ "MCP server started" = (⟨2, [1, 2]⟩, [])
    ∧ ∀ line2, handleLine (handleLine ⟨2, [1, 2]⟩ "MCP server started").1 line2
        = handleLine ⟨2, [1, 2]⟩ line2 :=
  claim8_malformed_line ⟨2, [1, 2]⟩ "MCP server started" rfl

/-- Claim C9: the line handler only ever fulfills promises: every effect it
emits is a resolution carrying the entire parsed response (even when that
response carries an error field and no result), and the only rejection in
the bridge is the timeout path's `'MCP server timeout'`. -/
theorem claim9_resolve_only (st : ManagerState) :
    (∀ line e, e ∈ (handleLine st line).2 →
      ∃ n r, e = Effect.resolved n r ∧ parseJson line = some r)
    ∧ (∀ n e, e ∈ (handleTimeout st n).2 → e = Effect.rejected n "MCP server timeout")
    ∧ handleLine ⟨3, [3]⟩ "\x7b\"id\":3,\"error\":\x7b\"message\":\"not found\"\x7d\x7d"
        = (⟨3, []⟩, [Effect.resolved 3 (Json.obj [("id", Json.num 3 0),
            ("error", Json.obj [("message", Json.str "not found")])])]) := by
  refine ⟨?_, ?_, rfl⟩
  · intro line e hmem
    rcases handleLine_cases st line with heq | ⟨m, resp, hp, _, _, heq⟩
    · rw [heq] at hmem; simp at hmem
    · rw [heq] at hmem
      rw [List.mem_singleton] at hmem
      exact ⟨m, resp, hmem, hp⟩
  · intro n e hmem
    unfold handleTimeout at hmem
    split at hmem
    · simp at hmem
      exact hmem
    · simp at hmem

/-- Witness for C9 at the worker-error response with id 3 pending. -/
theorem claim9_witness :
    ∃ n r, Effect.resolved 3 (Json.obj [("id", Json.num 3 0),
        ("error", Json.obj [("message", Json.str "not found")])]) = Effect.resolved n r
      ∧ parseJson "\x7b\"id\":3,\"error\":\x7b\"message\":\"not found\"\x7d\x7d" = some r :=
  (claim9_resolve_only ⟨3, [3]⟩).1 "\x7b\"id\":3,\"error\":\x7b\"message\":\"not found\"\x7d\x7d"
    (Effect.resolved 3 (Json.obj [("id", Json.num 3 0),
      ("error", Json.obj [("message", Json.str "not found")])]))
    (List.mem_singleton.mpr rfl)

/-- Claim C10: the `structuredData` field sent back by the chat handler is
the first tool result's structured payload (in execution order); payloads of
later tool calls are discarded and the field is null exactly when no tool
result produced one. -/
theorem claim10_structured_selection (rawResults : List Json) :
    selectStructuredData (rawResults.map mkToolCallResult)
      = ((rawResults.map mkToolCallResult).map (fun r => r.structuredData)).findSome? id
    ∧ (selectStructuredData (rawResults.map mkToolCallResult) = none ↔
        ∀ raw ∈ rawResults, (mkToolCallResult raw).structuredData = none) := by
  have htr : ∀ r ∈ rawResults.map mkToolCallResult, ∀ j, r.structuredData = some j →
      jsTruthy j = true := by
    intro r hr j hj
    obtain ⟨raw, _, rfl⟩ := List.mem_map.mp hr
    exact normalizeResult_structured_truthy hj
  have h := selectStructuredData_eq_findSome? htr
  refine ⟨h, ?_⟩
  rw [h, List.findSome?_eq_none_iff]
  constructor
  · intro hall raw hraw
    exact hall (mkToolCallResult raw).structuredData
      (List.mem_map_of_mem _ (List.mem_map_of_mem _ hraw))
  · intro hall x hx
    obtain ⟨r, hr, rfl⟩ := List.mem_map.mp hx
    obtain ⟨raw, hraw, rfl⟩ := List.mem_map.mp hr
    exact hall raw hraw

/-- Witness for C10: with a plain result first and two structured results
after it, the first structured payload wins and the later one is discarded. -/
theorem claim10_witness :
    selectStructuredData ([Json.obj [("result", Json.obj [("output", Json.str "plain")])],
        Json.obj [("result", Json.obj [("output", Json.str "\x7b\"property\":\"a\",\"formatted_text\":\"A\"\x7d")])],
        Json.obj [("result", Json.obj [("output", Json.str "\x7b\"property\":\"b\",\"formatted_text\":\"B\"\x7d")])]].map
        mkToolCallResult)
      = some (Json.obj [("property", Json.str "a"), ("formatted_text", Json.str "A")]) := by
  rw [(claim10_structured_selection _).1]
  rfl
